import Mathlib

/-!
Verification development for the `bio_utils_rs` library.

This file gives a shallow embedding of the parts of the library relevant to
k-mer sketching and reverse indexing:

* `NT_LOOKUP` / `ntLookup` — the 2-bit nucleotide encoding table
  (`src/nucleotide/statics.rs`);
* `mmHash64` — the invertible 64-bit mixing hash (`src/kmers/hash.rs`);
* `fracMinHash` — the FracMinHash sketch over canonical k-mers
  (`src/kmers/kmerize.rs`); Rust `u64` arithmetic is modelled on `Nat`
  with explicit reduction modulo `2 ^ 64` where the machine wraps, and a
  debug-build arithmetic overflow panic is modelled as the `none` result;
* `reverseComplement` — IUPAC-aware reverse complement
  (`src/nucleotide/seq.rs`);
* `buildReverseIndex` — the hash → bitset reverse index
  (`src/simd_sketch/index.rs`), with the parallel loop modelled as a fold
  over an arbitrary processing order of the sequence indices.

Byte strings are modelled as `List Nat` with each element a byte value.
-/

namespace BioUtils

/-- 2-bit nucleotide encoding table indexed by ASCII byte value, copied row
by row from `NT_LOOKUP` in `src/nucleotide/statics.rs`.  `A`/`a` = 0,
`C`/`c` = 1, `G`/`g` = 2, `T`/`t`/`U`/`u` = 3; note that the raw byte values
0, 1, 2, 3 also map to themselves (first four entries). -/
def NT_LOOKUP : List Nat := [
  0, 1, 2, 3, 4, 4, 4, 4, 4, 4, 4, 4, 4, 4, 4, 4, 4, 4, 4, 4, 4, 4, 4, 4, 4, 4, 4, 4, 4, 4, 4, 4,
  4, 4, 4, 4, 4, 4, 4, 4, 4, 4, 4, 4, 4, 4, 4, 4, 4, 4, 4, 4, 4, 4, 4, 4, 4, 4, 4, 4, 4, 4, 4, 4,
  4, 0, 4, 1, 4, 4, 4, 2, 4, 4, 4, 4, 4, 4, 4, 4, 4, 4, 4, 4, 3, 3, 4, 4, 4, 4, 4, 4, 4, 4, 4, 4,
  4, 0, 4, 1, 4, 4, 4, 2, 4, 4, 4, 4, 4, 4, 4, 4, 4, 4, 4, 4, 3, 3, 4, 4, 4, 4, 4, 4, 4, 4, 4, 4,
  4, 4, 4, 4, 4, 4, 4, 4, 4, 4, 4, 4, 4, 4, 4, 4, 4, 4, 4, 4, 4, 4, 4, 4, 4, 4, 4, 4, 4, 4, 4, 4,
  4, 4, 4, 4, 4, 4, 4, 4, 4, 4, 4, 4, 4, 4, 4, 4, 4, 4, 4, 4, 4, 4, 4, 4, 4, 4, 4, 4, 4, 4, 4, 4,
  4, 4, 4, 4, 4, 4, 4, 4, 4, 4, 4, 4, 4, 4, 4, 4, 4, 4, 4, 4, 4, 4, 4, 4, 4, 4, 4, 4, 4, 4, 4, 4,
  4, 4, 4, 4, 4, 4, 4, 4, 4, 4, 4, 4, 4, 4, 4, 4, 4, 4, 4, 4, 4, 4, 4, 4, 4, 4, 4, 4, 4, 4, 4, 4]

/-- `NT_LOOKUP[*nt_char as usize]`: table lookup for a byte value.  Every
byte is below 256, so the default value is never used. -/
def ntLookup (b : Nat) : Nat := NT_LOOKUP.getD b 4

/-- A byte is an unambiguous nucleotide when its code is below 4. -/
def isNt (b : Nat) : Bool := ntLookup b < 4

/-- `mm_hash64` from `src/kmers/hash.rs` (the minimap2 integer hash).
Rust `u64` values are `Nat`s below `2 ^ 64`; `wrapping_add` is addition
followed by `% 2 ^ 64`, `<<` wraps modulo `2 ^ 64`, and `!` (bitwise NOT)
on a value `v < 2 ^ 64` is `2 ^ 64 - 1 - v`. -/
def mmHash64 (kmer : Nat) : Nat :=
  let key := kmer % 2 ^ 64
  let key := 2 ^ 64 - 1 - ((key + key <<< 21 % 2 ^ 64) % 2 ^ 64)
  let key := key ^^^ key >>> 24
  let key := ((key + key <<< 3 % 2 ^ 64) % 2 ^ 64 + key <<< 8 % 2 ^ 64) % 2 ^ 64
  let key := key ^^^ key >>> 14
  let key := ((key + key <<< 2 % 2 ^ 64) % 2 ^ 64 + key <<< 4 % 2 ^ 64) % 2 ^ 64
  let key := key ^^^ key >>> 28
  let key := (key + key <<< 31 % 2 ^ 64) % 2 ^ 64
  key

/-- Explicit inverse of `mmHash64` on `u64` values: each multiplicative
step is undone by multiplying with the inverse of the odd constant modulo
`2 ^ 64`, and each xorshift step is undone by the standard telescoping
xor of shifted copies. -/
def mmHash64Inv (h : Nat) : Nat :=
  let key := h * 4611686016279904257 % 2 ^ 64
  let key := key ^^^ key >>> 28 ^^^ key >>> 56
  let key := key * 14933078535860113213 % 2 ^ 64
  let key := key ^^^ key >>> 14 ^^^ key >>> 28 ^^^ key >>> 42 ^^^ key >>> 56
  let key := key * 15244667743933553977 % 2 ^ 64
  let key := key ^^^ key >>> 24 ^^^ key >>> 48
  let key := (2 ^ 64 - 1 - key) * 9223376434899189761 % 2 ^ 64
  key

/-- The error type of the crate (`src/errors.rs`).  Only the variant used
by the functions modelled here is carried over; the IO-related variants
are irrelevant to pure code. -/
inductive BioError where
  | invalidParameterError (msg : String)
deriving DecidableEq

deriving instance DecidableEq for Except

/-- `u64::MAX`. -/
def U64MAX : Nat := 2 ^ 64 - 1

/-- The mutable state of the `frac_min_hash` loop in
`src/kmers/kmerize.rs`: forward accumulator, reverse accumulator, count of
already processed consecutive valid bases, and the collected hashes. -/
structure KState where
  kmer_forward : Nat
  kmer_reverse : Nat
  valid_kmer_index : Nat
  canonical_hashes : Finset Nat
deriving DecidableEq

/-- One iteration of the `seq.iter().for_each` loop of `frac_min_hash`:
ambiguous bytes reset the accumulators, valid bytes are pushed into the
forward and reverse accumulators, and once a full window has been seen the
canonical (smaller) orientation is threshold-tested and its mixed hash
inserted. -/
def kstep (kmer_size mask shift ds_factor : Nat) (st : KState) (nt_char : Nat) : KState :=
  let nt := ntLookup nt_char
  if nt ≥ 4 then
    { kmer_forward := 0, kmer_reverse := 0, valid_kmer_index := 0,
      canonical_hashes := st.canonical_hashes }
  else
    let kmer_forward := (st.kmer_forward <<< 2 % 2 ^ 64 ||| nt) &&& mask
    let nt_rev := 3 - nt
    let kmer_reverse := st.kmer_reverse >>> 2 ||| nt_rev <<< shift % 2 ^ 64
    let canonical_hashes :=
      if st.valid_kmer_index ≥ kmer_size - 1 then
        let canonical := if kmer_forward < kmer_reverse then kmer_forward else kmer_reverse
        if canonical ≤ U64MAX / ds_factor then
          insert (mmHash64 canonical) st.canonical_hashes
        else st.canonical_hashes
      else st.canonical_hashes
    { kmer_forward := kmer_forward, kmer_reverse := kmer_reverse,
      valid_kmer_index := st.valid_kmer_index + 1,
      canonical_hashes := canonical_hashes }

/-- Initial loop state of `frac_min_hash`: zero accumulators, zero valid
bases seen, empty hash set. -/
def initKState : KState :=
  { kmer_forward := 0, kmer_reverse := 0, valid_kmer_index := 0,
    canonical_hashes := ∅ }

/-- `frac_min_hash` from `src/kmers/kmerize.rs`.

The two validation checks are performed first, in source order.  The value
`none` models a debug-build panic from arithmetic overflow: at
`kmer_size ≥ 32` the mask computation `(1u64 << nbits) - 1` shifts by
`nbits ≥ 64`, and at `kmer_size = 0` the shift computation
`(kmer_size - 1) * 2` underflows `usize`.  On the remaining domain the
function returns `some (Except.ok hashes)` with the fold of `kstep` over
the sequence. -/
def fracMinHash (kmer_size : Nat) (ds_factor : Nat) (seq : List Nat) :
    Option (Except BioError (Finset Nat)) :=
  if kmer_size > seq.length then
    some (.error (.invalidParameterError
      ("kmer size " ++ toString kmer_size ++ " cannot be longer than sequence len "
        ++ toString seq.length ++ ".")))
  else if ds_factor = 0 ∨ ds_factor > 200 then
    some (.error (.invalidParameterError
      ("downsampling factor " ++ toString ds_factor ++ " must be in range 1-200.")))
  else
    let nbits := kmer_size <<< 1
    if nbits ≥ 64 then none
    else if kmer_size = 0 then none
    else
      let mask := 1 <<< nbits - 1
      let shift := (kmer_size - 1) * 2
      some (.ok ((seq.foldl (kstep kmer_size mask shift ds_factor)
        initKState).canonical_hashes))

/-- 2-bit codes of the bytes of a window. -/
def kmerCodes (w : List Nat) : List Nat := w.map ntLookup

/-- Forward 2-bit packing of a list of codes: first code in the highest
position, matching `kmer_forward = (kmer_forward << 2 | nt)`. -/
def packFwd (cs : List Nat) : Nat := cs.foldl (fun acc c => acc * 4 + c) 0

/-- Reverse-complement 2-bit packing of a list of codes: complement each
code and pack in reverse order, matching the `kmer_reverse` accumulator. -/
def packRev (cs : List Nat) : Nat := packFwd ((cs.map (fun c => 3 - c)).reverse)

/-- Canonical packed value of a window: the minimum of the forward packing
and the reverse-complement packing of its codes. -/
def canonicalOf (w : List Nat) : Nat :=
  min (packFwd (kmerCodes w)) (packRev (kmerCodes w))

/-- A window start index is retained when the window of length `k`
starting there consists of unambiguous bases and its canonical packed
value passes the downsampling threshold. -/
def windowOk (k d : Nat) (seq : List Nat) (i : Nat) : Prop :=
  (∀ c ∈ kmerCodes ((seq.drop i).take k), c < 4) ∧
    canonicalOf ((seq.drop i).take k) ≤ U64MAX / d

instance windowOk.decidable (k d : Nat) (seq : List Nat) (i : Nat) :
    Decidable (windowOk k d seq i) := by
  unfold windowOk; infer_instance

/-- Reference description of the sketch: the image of the retained window
start indices under the mixed canonical hash. -/
def specHashes (k d : Nat) (seq : List Nat) : Finset Nat :=
  ((Finset.range (seq.length + 1 - k)).filter (windowOk k d seq)).image
    (fun i => mmHash64 (canonicalOf ((seq.drop i).take k)))

/-- Length of the run of consecutive unambiguous bases ending the list:
the value of `valid_kmer_index` after the loop has consumed the list. -/
def vrun (l : List Nat) : Nat := (l.reverse.takeWhile isNt).length

/-- The maximal all-unambiguous suffix of the list: the bases currently
held (up to masking) by the two accumulators. -/
def vsuffix (l : List Nat) : List Nat := (l.reverse.takeWhile isNt).reverse


/-- Byte-level complement used by `reverse_complement` in
`src/nucleotide/seq.rs`: the exact `match` of the source, with every
unlisted byte mapped to `N` (78). -/
def rcByte (nt : Nat) : Nat :=
  if nt = 65 then 84        -- A -> T
  else if nt = 67 then 71   -- C -> G
  else if nt = 71 then 67   -- G -> C
  else if nt = 84 then 65   -- T -> A
  else if nt = 82 then 89   -- R -> Y
  else if nt = 89 then 82   -- Y -> R
  else if nt = 83 then 83   -- S -> S
  else if nt = 87 then 87   -- W -> W
  else if nt = 75 then 77   -- K -> M
  else if nt = 77 then 75   -- M -> K
  else if nt = 66 then 86   -- B -> V
  else if nt = 68 then 72   -- D -> H
  else if nt = 72 then 68   -- H -> D
  else if nt = 86 then 66   -- V -> B
  else if nt = 78 then 78   -- N -> N
  else 78                   -- unknown -> N

/-- `reverse_complement` from `src/nucleotide/seq.rs`: iterate the bytes
in reverse and push each complement. -/
def reverseComplement (seq : List Nat) : List Nat := seq.reverse.map rcByte


/-- Model of `fixedbitset::FixedBitSet`: a fixed number of bits and the
set of positions holding a one. -/
structure Bitset where
  len : Nat
  bits : Finset Nat
deriving DecidableEq

/-- `FixedBitSet::with_capacity(n)`: `n` bits, all zero. -/
def Bitset.withCapacity (n : Nat) : Bitset := { len := n, bits := ∅ }

/-- `bitset.set(i, true)`. -/
def Bitset.setBit (b : Bitset) (i : Nat) : Bitset := { b with bits := insert i b.bits }

/-- Net effect on the map of the inner `for h in &hashes` loop of
`build_reverse_index` for sequence index `i`: every key in the sketch is
upserted once (the sketch is a set, so each key occurs once), with
`and_modify` setting bit `i` on an existing bitset and `or_insert_with`
creating a fresh bitset of capacity `num_seqs` with bit `i` set. -/
def upsertSeq (m : Nat → Option Bitset) (num_seqs i : Nat) (hashes : Finset Nat) :
    Nat → Option Bitset :=
  fun h =>
    if h ∈ hashes then
      match m h with
      | some bitset => some (bitset.setBit i)
      | none => some ((Bitset.withCapacity num_seqs).setBit i)
    else m h

/-- `build_reverse_index` with the sequence indices processed in the given
order: a sequential fold of the per-sequence upserts.  The map is modelled
extensionally as a function from hash to optional bitset. -/
def buildOrder (seqs : List (List Nat)) (sketcher : List Nat → Finset Nat)
    (order : List Nat) : Nat → Option Bitset :=
  order.foldl (fun m i => upsertSeq m seqs.length i (sketcher (seqs.getD i [])))
    (fun _ => none)

/-- `build_reverse_index` from `src/simd_sketch/index.rs`: the canonical
(single-threaded, in-order) processing of `seqs.par_iter().enumerate()`. -/
def buildReverseIndex (seqs : List (List Nat)) (sketcher : List Nat → Finset Nat) :
    Nat → Option Bitset :=
  buildOrder seqs sketcher (List.range seqs.length)

/-- A tiny concrete sketching strategy used to instantiate theorems about
`buildReverseIndex` on closed inputs. -/
def skLen : List Nat → Finset Nat := fun s => {s.length}


/-! ### Bit-level helper lemmas -/

/-- Masking with `2 ^ n - 1` is reduction modulo `2 ^ n`. -/
theorem land_two_pow_sub_one (x n : Nat) : x &&& (2 ^ n - 1) = x % 2 ^ n := by
  apply Nat.eq_of_testBit_eq
  intro j
  rw [Nat.testBit_land, Nat.testBit_two_pow_sub_one, Nat.testBit_mod_two_pow,
    Bool.and_comm]

/-- Bitwise or with a shifted value is addition when the low part fits. -/
theorem or_mul_pow_eq_add (n a b : Nat) (ha : a < 2 ^ n) :
    a ||| b * 2 ^ n = a + b * 2 ^ n := by
  apply Nat.eq_of_testBit_eq
  intro j
  rcases Nat.lt_or_ge j n with hj | hj
  · have h1 : (b * 2 ^ n).testBit j = false := by
      rw [← Nat.shiftLeft_eq, Nat.testBit_shiftLeft]
      simp [Nat.not_le.mpr hj]
    have h2 : (a + b * 2 ^ n) % 2 ^ n = a % 2 ^ n := Nat.add_mul_mod_self_right ..
    have h3 := Nat.testBit_mod_two_pow (a + b * 2 ^ n) n j
    have h4 := Nat.testBit_mod_two_pow a n j
    rw [h2, h4] at h3
    simp only [hj, decide_True, Bool.true_and] at h3
    rw [Nat.testBit_lor, h1, Bool.or_false, h3]
  · have hdiv : (a + b * 2 ^ n) / 2 ^ n = b := by
      rw [Nat.add_mul_div_right _ _ (Nat.two_pow_pos n), Nat.div_eq_of_lt ha,
        Nat.zero_add]
    have keyR : (a + b * 2 ^ n).testBit j = b.testBit (j - n) := by
      have h6 : n + (j - n) = j := by omega
      have h5 := @Nat.testBit_shiftRight n (j - n) (a + b * 2 ^ n)
      rw [Nat.shiftRight_eq_div_pow, hdiv, h6] at h5
      exact h5.symm
    have keyL : a.testBit j = false :=
      Nat.testBit_eq_false_of_lt
        (lt_of_lt_of_le ha (Nat.pow_le_pow_right (by norm_num) hj))
    rw [Nat.testBit_lor, keyL, keyR, ← Nat.shiftLeft_eq, Nat.testBit_shiftLeft]
    simp [hj]

/-- A right shift never increases a natural number. -/
theorem shiftRight_le_self (x n : Nat) : x >>> n ≤ x := by
  rw [Nat.shiftRight_eq_div_pow]
  exact Nat.div_le_self _ _

/-- Right shifts distribute over xor. -/
theorem xor_shiftRight (a b n : Nat) : (a ^^^ b) >>> n = a >>> n ^^^ b >>> n := by
  apply Nat.eq_of_testBit_eq
  intro j
  simp [Nat.testBit_shiftRight, Nat.testBit_xor]

/-- Shifting a bounded value far enough right gives zero. -/
theorem shiftRight_eq_zero_of_lt (x m n : Nat) (h : x < 2 ^ n) (hmn : n ≤ m) :
    x >>> m = 0 := by
  rw [Nat.shiftRight_eq_div_pow]
  exact Nat.div_eq_of_lt
    (lt_of_lt_of_le h (Nat.pow_le_pow_right (by norm_num) hmn))

/-- One telescoping step for undoing a xorshift. -/
theorem xor_chain_step (x a b : Nat) : (x ^^^ a) ^^^ (a ^^^ b) = x ^^^ b := by
  rw [Nat.xor_assoc, ← Nat.xor_assoc a a b, Nat.xor_self, Nat.zero_xor]

/-- Cancelling the final term of a xorshift telescope. -/
theorem xor_cancel_right (x d : Nat) : (x ^^^ d) ^^^ d = x := by
  rw [Nat.xor_assoc, Nat.xor_self, Nat.xor_zero]

/-- Undo `key ^= key >> 24` on 64-bit values. -/
theorem unxor24 (k : Nat) (hk : k < 2 ^ 64) (y : Nat) (hy : y = k ^^^ k >>> 24) :
    y ^^^ y >>> 24 ^^^ y >>> 48 = k := by
  subst hy
  have h1 : (k ^^^ k >>> 24) >>> 24 = k >>> 24 ^^^ k >>> 48 := by
    rw [xor_shiftRight, ← Nat.shiftRight_add]
  have h2 : (k ^^^ k >>> 24) >>> 48 = k >>> 48 ^^^ 0 := by
    rw [xor_shiftRight, ← Nat.shiftRight_add,
      shiftRight_eq_zero_of_lt k 72 64 hk (by norm_num)]
  rw [h1, h2, Nat.xor_zero, xor_chain_step, xor_cancel_right]

/-- Undo `key ^= key >> 28` on 64-bit values. -/
theorem unxor28 (k : Nat) (hk : k < 2 ^ 64) (y : Nat) (hy : y = k ^^^ k >>> 28) :
    y ^^^ y >>> 28 ^^^ y >>> 56 = k := by
  subst hy
  have h1 : (k ^^^ k >>> 28) >>> 28 = k >>> 28 ^^^ k >>> 56 := by
    rw [xor_shiftRight, ← Nat.shiftRight_add]
  have h2 : (k ^^^ k >>> 28) >>> 56 = k >>> 56 ^^^ 0 := by
    rw [xor_shiftRight, ← Nat.shiftRight_add,
      shiftRight_eq_zero_of_lt k 84 64 hk (by norm_num)]
  rw [h1, h2, Nat.xor_zero, xor_chain_step, xor_cancel_right]

/-- Undo `key ^= key >> 14` on 64-bit values. -/
theorem unxor14 (k : Nat) (hk : k < 2 ^ 64) (y : Nat) (hy : y = k ^^^ k >>> 14) :
    y ^^^ y >>> 14 ^^^ y >>> 28 ^^^ y >>> 42 ^^^ y >>> 56 = k := by
  subst hy
  have h1 : (k ^^^ k >>> 14) >>> 14 = k >>> 14 ^^^ k >>> 28 := by
    rw [xor_shiftRight, ← Nat.shiftRight_add]
  have h2 : (k ^^^ k >>> 14) >>> 28 = k >>> 28 ^^^ k >>> 42 := by
    rw [xor_shiftRight, ← Nat.shiftRight_add]
  have h3 : (k ^^^ k >>> 14) >>> 42 = k >>> 42 ^^^ k >>> 56 := by
    rw [xor_shiftRight, ← Nat.shiftRight_add]
  have h4 : (k ^^^ k >>> 14) >>> 56 = k >>> 56 ^^^ 0 := by
    rw [xor_shiftRight, ← Nat.shiftRight_add,
      shiftRight_eq_zero_of_lt k 70 64 hk (by norm_num)]
  rw [h1, h2, h3, h4, Nat.xor_zero, xor_chain_step, xor_chain_step,
    xor_chain_step, xor_cancel_right]

/-- Multiplying by an odd constant is undone by its inverse modulo `2 ^ 64`. -/
theorem mul_inv_cancel_mod (c cinv : Nat) (hc : c * cinv % 2 ^ 64 = 1)
    (x : Nat) (hx : x < 2 ^ 64) : x * c % 2 ^ 64 * cinv % 2 ^ 64 = x := by
  rw [Nat.mod_mul_mod, Nat.mul_assoc, Nat.mul_mod x (c * cinv), hc,
    Nat.mod_eq_of_lt hx, Nat.mul_one, Nat.mod_eq_of_lt hx]

/-- Normal form of the first `mm_hash64` step. -/
theorem step_mul1 (key : Nat) :
    (key + key <<< 21 % 2 ^ 64) % 2 ^ 64 = key * 2097153 % 2 ^ 64 := by
  rw [Nat.shiftLeft_eq]
  have h : (2 : Nat) ^ 21 = 2097152 := by norm_num
  have h64 : (2 : Nat) ^ 64 = 18446744073709551616 := by norm_num
  rw [h, h64]
  omega

/-- Normal form of the third `mm_hash64` step. -/
theorem step_mul3 (key : Nat) :
    ((key + key <<< 3 % 2 ^ 64) % 2 ^ 64 + key <<< 8 % 2 ^ 64) % 2 ^ 64 =
      key * 265 % 2 ^ 64 := by
  rw [Nat.shiftLeft_eq, Nat.shiftLeft_eq]
  have h3 : (2 : Nat) ^ 3 = 8 := by norm_num
  have h8 : (2 : Nat) ^ 8 = 256 := by norm_num
  have h64 : (2 : Nat) ^ 64 = 18446744073709551616 := by norm_num
  rw [h3, h8, h64]
  omega

/-- Normal form of the fifth `mm_hash64` step. -/
theorem step_mul5 (key : Nat) :
    ((key + key <<< 2 % 2 ^ 64) % 2 ^ 64 + key <<< 4 % 2 ^ 64) % 2 ^ 64 =
      key * 21 % 2 ^ 64 := by
  rw [Nat.shiftLeft_eq, Nat.shiftLeft_eq]
  have h2 : (2 : Nat) ^ 2 = 4 := by norm_num
  have h4 : (2 : Nat) ^ 4 = 16 := by norm_num
  have h64 : (2 : Nat) ^ 64 = 18446744073709551616 := by norm_num
  rw [h2, h4, h64]
  omega

/-- Normal form of the last `mm_hash64` step. -/
theorem step_mul7 (key : Nat) :
    (key + key <<< 31 % 2 ^ 64) % 2 ^ 64 = key * 2147483649 % 2 ^ 64 := by
  rw [Nat.shiftLeft_eq]
  have h : (2 : Nat) ^ 31 = 2147483648 := by norm_num
  have h64 : (2 : Nat) ^ 64 = 18446744073709551616 := by norm_num
  rw [h, h64]
  omega

/-- `mmHash64Inv` undoes `mmHash64` on every 64-bit value. -/
theorem mmHash64Inv_mmHash64 (x : Nat) (hx : x < 2 ^ 64) :
    mmHash64Inv (mmHash64 x) = x := by
  have hM : (0 : Nat) < 2 ^ 64 := Nat.two_pow_pos 64
  simp only [mmHash64, mmHash64Inv]
  rw [Nat.mod_eq_of_lt hx, step_mul1 x]
  set t1 := 2 ^ 64 - 1 - x * 2097153 % 2 ^ 64 with ht1
  have ht1lt : t1 < 2 ^ 64 := by
    have := Nat.mod_lt (x * 2097153) hM
    omega
  set t2 := t1 ^^^ t1 >>> 24 with ht2
  have ht2lt : t2 < 2 ^ 64 := Nat.xor_lt_two_pow ht1lt
    (lt_of_le_of_lt (shiftRight_le_self _ _) ht1lt)
  rw [step_mul3 t2]
  set t3 := t2 * 265 % 2 ^ 64 with ht3
  have ht3lt : t3 < 2 ^ 64 := Nat.mod_lt _ hM
  set t4 := t3 ^^^ t3 >>> 14 with ht4
  have ht4lt : t4 < 2 ^ 64 := Nat.xor_lt_two_pow ht3lt
    (lt_of_le_of_lt (shiftRight_le_self _ _) ht3lt)
  rw [step_mul5 t4]
  set t5 := t4 * 21 % 2 ^ 64 with ht5
  have ht5lt : t5 < 2 ^ 64 := Nat.mod_lt _ hM
  set t6 := t5 ^^^ t5 >>> 28 with ht6
  have ht6lt : t6 < 2 ^ 64 := Nat.xor_lt_two_pow ht5lt
    (lt_of_le_of_lt (shiftRight_le_self _ _) ht5lt)
  rw [step_mul7 t6]
  rw [mul_inv_cancel_mod 2147483649 4611686016279904257 (by norm_num) t6 ht6lt]
  rw [unxor28 t5 ht5lt t6 ht6]
  rw [mul_inv_cancel_mod 21 14933078535860113213 (by norm_num) t4 ht4lt]
  rw [unxor14 t3 ht3lt t4 ht4]
  rw [mul_inv_cancel_mod 265 15244667743933553977 (by norm_num) t2 ht2lt]
  rw [unxor24 t1 ht1lt t2 ht2]
  have hsub : 2 ^ 64 - 1 - t1 = x * 2097153 % 2 ^ 64 := by
    have := Nat.mod_lt (x * 2097153) hM
    omega
  rw [hsub]
  exact mul_inv_cancel_mod 2097153 9223376434899189761 (by norm_num) x hx

/-! ### Valid-run bookkeeping -/

theorem vrun_concat_valid (l : List Nat) (b : Nat) (hb : isNt b = true) :
    vrun (l ++ [b]) = vrun l + 1 := by
  simp [vrun, List.reverse_append, List.takeWhile_cons, hb]

theorem vrun_concat_invalid (l : List Nat) (b : Nat) (hb : isNt b = false) :
    vrun (l ++ [b]) = 0 := by
  simp [vrun, List.reverse_append, List.takeWhile_cons, hb]

theorem vsuffix_concat_valid (l : List Nat) (b : Nat) (hb : isNt b = true) :
    vsuffix (l ++ [b]) = vsuffix l ++ [b] := by
  simp [vsuffix, List.reverse_append, List.takeWhile_cons, hb]

theorem vsuffix_concat_invalid (l : List Nat) (b : Nat) (hb : isNt b = false) :
    vsuffix (l ++ [b]) = [] := by
  simp [vsuffix, List.reverse_append, List.takeWhile_cons, hb]

theorem length_vsuffix (l : List Nat) : (vsuffix l).length = vrun l := by
  simp [vsuffix, vrun]

theorem vsuffix_all_valid (l : List Nat) : ∀ b ∈ vsuffix l, isNt b = true := by
  intro b hb
  rw [vsuffix, List.mem_reverse] at hb
  exact List.mem_takeWhile_imp hb

theorem vsuffix_isSuffix (l : List Nat) : vsuffix l <:+ l := by
  refine ⟨(l.reverse.dropWhile isNt).reverse, ?_⟩
  rw [vsuffix, ← List.reverse_append, List.takeWhile_append_dropWhile,
    List.reverse_reverse]

theorem length_takeWhile_le {α : Type} (p : α → Bool) :
    ∀ l : List α, (l.takeWhile p).length ≤ l.length
  | [] => Nat.le_refl _
  | x :: xs => by
    rw [List.takeWhile_cons]
    by_cases hx : p x = true
    · rw [if_pos hx]
      simpa using length_takeWhile_le p xs
    · rw [if_neg hx]
      simp

theorem vrun_le_length (l : List Nat) : vrun l ≤ l.length := by
  rw [vrun, ← List.length_reverse l]
  exact length_takeWhile_le isNt l.reverse

/-- A prefix of `takeWhile` of length `k` exists exactly when the first
`k` elements all satisfy the predicate. -/
theorem takeWhile_length_ge_iff {α : Type} (p : α → Bool) :
    ∀ (xs : List α) (k : Nat), k ≤ xs.length →
      (k ≤ (xs.takeWhile p).length ↔ ∀ a ∈ xs.take k, p a = true)
  | _, 0, _ => by simp
  | [], k + 1, h => by simp at h
  | x :: xs, k + 1, h => by
    by_cases hx : p x = true
    · rw [List.takeWhile_cons, if_pos hx]
      simp only [List.length_cons, Nat.add_le_add_iff_right,
        List.take_succ_cons, List.mem_cons]
      rw [takeWhile_length_ge_iff p xs k (by simpa using h)]
      constructor
      · rintro hall a (rfl | ha)
        · exact hx
        · exact hall a ha
      · intro hall a ha
        exact hall a (Or.inr ha)
    · rw [List.takeWhile_cons, if_neg hx]
      simp only [List.length_nil, List.take_succ_cons, List.mem_cons]
      constructor
      · intro habs
        exact absurd habs (by omega)
      · intro hall
        exact absurd (hall x (Or.inl rfl)) hx

/-- The last `k` bytes are all unambiguous exactly when the valid run has
length at least `k`. -/
theorem vrun_ge_iff (l : List Nat) (k : Nat) (hk : k ≤ l.length) :
    k ≤ vrun l ↔ ∀ b ∈ l.drop (l.length - k), isNt b = true := by
  rw [vrun, takeWhile_length_ge_iff isNt l.reverse k (by simpa using hk),
    List.take_reverse]
  constructor
  · intro h b hb
    exact h b (by rw [List.mem_reverse]; exact hb)
  · intro h b hb
    rw [List.mem_reverse] at hb
    exact h b hb

/-- Dropping all but the last `k` elements leaves exactly `k` elements,
so the subsequent `take k` is the identity. -/
theorem take_drop_last (l : List Nat) (k : Nat) (hk : k ≤ l.length) :
    (l.drop (l.length - k)).take k = l.drop (l.length - k) := by
  apply List.take_of_length_le
  rw [List.length_drop]
  omega

/-- Windows that end before the appended element are unchanged. -/
theorem window_stable (l : List Nat) (b : Nat) (i k : Nat) (h : i + k ≤ l.length) :
    ((l ++ [b]).drop i).take k = (l.drop i).take k := by
  rw [List.drop_append_of_le_length (by omega),
    List.take_append_of_le_length (by rw [List.length_drop]; omega)]

/-- The last `k` elements of a list with a long suffix are the last `k`
elements of that suffix. -/
theorem drop_last_of_suffix (s l : List Nat) (k : Nat) (hs : s <:+ l)
    (hk : k ≤ s.length) : l.drop (l.length - k) = s.drop (s.length - k) := by
  obtain ⟨t, rfl⟩ := hs
  have h1 : (t ++ s).length - k = t.length + (s.length - k) := by
    rw [List.length_append]
    omega
  rw [h1, List.drop_append]

/-! ### Packing lemmas -/

theorem packFwd_foldl (init : Nat) (l : List Nat) :
    l.foldl (fun acc c => acc * 4 + c) init = init * 4 ^ l.length + packFwd l := by
  induction l generalizing init with
  | nil => simp [packFwd]
  | cons c l ih =>
    rw [List.foldl_cons]
    rw [ih (init * 4 + c)]
    have hc : packFwd (c :: l) = c * 4 ^ l.length + packFwd l := by
      rw [packFwd, List.foldl_cons]
      have := ih (0 * 4 + c)
      simpa [packFwd] using this
    rw [hc, List.length_cons, pow_succ]
    ring

theorem packFwd_cons (c : Nat) (cs : List Nat) :
    packFwd (c :: cs) = c * 4 ^ cs.length + packFwd cs := by
  rw [packFwd, List.foldl_cons]
  have := packFwd_foldl (0 * 4 + c) cs
  simpa [packFwd] using this

theorem packFwd_append (a b : List Nat) :
    packFwd (a ++ b) = packFwd a * 4 ^ b.length + packFwd b := by
  rw [packFwd, List.foldl_append]
  exact packFwd_foldl _ b

theorem packFwd_concat (cs : List Nat) (c : Nat) :
    packFwd (cs ++ [c]) = packFwd cs * 4 + c := by
  rw [packFwd_append]
  simp [packFwd]

theorem packFwd_lt (cs : List Nat) (h : ∀ c ∈ cs, c < 4) :
    packFwd cs < 4 ^ cs.length := by
  induction cs using List.reverseRecOn with
  | nil => simp [packFwd]
  | append_singleton cs c ih =>
    rw [packFwd_concat]
    have hlen : (cs ++ [c]).length = cs.length + 1 := by simp
    rw [hlen, pow_succ]
    have hc : c < 4 := h c (by simp)
    have hcs : packFwd cs < 4 ^ cs.length := ih (fun x hx => h x (by simp [hx]))
    omega

theorem packRev_nil : packRev [] = 0 := rfl

theorem packRev_concat (cs : List Nat) (c : Nat) :
    packRev (cs ++ [c]) = (3 - c) * 4 ^ cs.length + packRev cs := by
  rw [packRev, packRev, List.map_append]
  simp only [List.map_cons, List.map_nil, List.reverse_append,
    List.reverse_cons, List.reverse_nil, List.nil_append, List.singleton_append]
  rw [packFwd_cons]
  simp

theorem packRev_cons (c : Nat) (cs : List Nat) :
    packRev (c :: cs) = 4 * packRev cs + (3 - c) := by
  rw [packRev, packRev]
  simp only [List.map_cons, List.reverse_cons]
  rw [packFwd_concat]
  ring

theorem packRev_lt (cs : List Nat) : packRev cs < 4 ^ cs.length := by
  rw [packRev]
  have h := packFwd_lt ((cs.map (fun c => 3 - c)).reverse) (by
    intro c hc
    rw [List.mem_reverse, List.mem_map] at hc
    obtain ⟨a, _, rfl⟩ := hc
    omega)
  simpa using h

/-- Replacing a summand by its residue does not change a sum modulo `m`. -/
theorem mod_mul_add_mod (P m a c : Nat) : (P % m * a + c) % m = (P * a + c) % m := by
  conv_lhs => rw [Nat.add_mod]
  rw [Nat.mod_mul_mod, ← Nat.add_mod]

/-- The source's `match kmer_forward < kmer_reverse` selection is the
minimum. -/
theorem min_eq_ite (a b : Nat) : min a b = if a < b then a else b := by
  by_cases h : a < b
  · rw [if_pos h]
    exact Nat.min_eq_left (Nat.le_of_lt h)
  · rw [if_neg h]
    exact Nat.min_eq_right (by omega)

/-- `or_mul_pow_eq_add` restated with base 4. -/
theorem or_mul_pow4_eq_add (n a b : Nat) (ha : a < 4 ^ n) :
    a ||| b * 4 ^ n = a + b * 4 ^ n := by
  have h4 : (4 : Nat) ^ n = 2 ^ (2 * n) := by
    rw [Nat.pow_mul]
  rw [h4] at ha ⊢
  exact or_mul_pow_eq_add (2 * n) a b ha

/-- `or_mul_pow_eq_add` specialised to a 2-bit code. -/
theorem or_mul4_eq_add (a b : Nat) (ha : a < 4) : a ||| b * 4 = a + b * 4 := by
  have h := or_mul_pow4_eq_add 1 a b (by rwa [pow_one])
  rwa [pow_one] at h

/-! ### Membership in the reference sketch -/

theorem mem_specHashes (k d : Nat) (seq : List Nat) (x : Nat) :
    x ∈ specHashes k d seq ↔ ∃ i, i + k ≤ seq.length ∧ windowOk k d seq i ∧
      x = mmHash64 (canonicalOf ((seq.drop i).take k)) := by
  rw [specHashes]
  simp only [Finset.mem_image, Finset.mem_filter, Finset.mem_range]
  constructor
  · rintro ⟨i, ⟨hi, hok⟩, hx⟩
    exact ⟨i, by omega, hok, hx.symm⟩
  · rintro ⟨i, hi, hok, hx⟩
    exact ⟨i, ⟨by omega, hok⟩, hx.symm⟩

theorem windowOk_stable (l : List Nat) (b : Nat) (i k d : Nat)
    (h : i + k ≤ l.length) : windowOk k d (l ++ [b]) i ↔ windowOk k d l i := by
  rw [windowOk, windowOk, window_stable l b i k h]

/-- Appending one byte adds at most one window: the one ending at the new
byte, kept when it is in range and passes the retention test. -/
theorem specHashes_concat (k d : Nat) (hk : 1 ≤ k) (l : List Nat) (b : Nat) :
    specHashes k d (l ++ [b]) =
      if k ≤ l.length + 1 ∧ windowOk k d (l ++ [b]) (l.length + 1 - k) then
        insert (mmHash64 (canonicalOf (((l ++ [b]).drop (l.length + 1 - k)).take k)))
          (specHashes k d l)
      else specHashes k d l := by
  have hlen : (l ++ [b]).length = l.length + 1 := by simp
  apply Finset.ext
  intro x
  rw [mem_specHashes]
  split_ifs with h
  · rw [Finset.mem_insert, mem_specHashes]
    constructor
    · rintro ⟨i, hik, hok, hx⟩
      rw [hlen] at hik
      by_cases hi : i + k ≤ l.length
      · exact Or.inr ⟨i, hi, (windowOk_stable l b i k d hi).mp hok,
          by rw [← window_stable l b i k hi]; exact hx⟩
      · left
        have hieq : i = l.length + 1 - k := by omega
        subst hieq
        exact hx
    · rintro (hx | ⟨i, hik, hok, hx⟩)
      · exact ⟨l.length + 1 - k, by omega, h.2, hx⟩
      · exact ⟨i, by rw [hlen]; omega, (windowOk_stable l b i k d hik).mpr hok,
          by rw [window_stable l b i k hik]; exact hx⟩
  · rw [mem_specHashes]
    constructor
    · rintro ⟨i, hik, hok, hx⟩
      rw [hlen] at hik
      have hi : i + k ≤ l.length := by
        by_contra hcon
        have hieq : i = l.length + 1 - k := by omega
        subst hieq
        exact h ⟨by omega, hok⟩
      exact ⟨i, hi, (windowOk_stable l b i k d hi).mp hok,
        by rw [← window_stable l b i k hi]; exact hx⟩
    · rintro ⟨i, hik, hok, hx⟩
      exact ⟨i, by rw [hlen]; omega, (windowOk_stable l b i k d hik).mpr hok,
        by rw [window_stable l b i k hik]; exact hx⟩

/-! ### The loop invariant of `frac_min_hash` -/

/-- Full characterisation of the `frac_min_hash` loop state after folding
over a byte list: the counter is the current valid run, the forward
accumulator holds the masked packing of the valid suffix, the reverse
accumulator holds the shifted reverse-complement packing of its last `k`
bytes, and the hash set is exactly the reference sketch. -/
theorem kfold_invariant (k d : Nat) (hk1 : 1 ≤ k) (hk31 : k ≤ 31) (l : List Nat) :
    (List.foldl (kstep k (4 ^ k - 1) (2 * (k - 1)) d) initKState l).valid_kmer_index
        = vrun l ∧
    (List.foldl (kstep k (4 ^ k - 1) (2 * (k - 1)) d) initKState l).kmer_forward
        = packFwd (kmerCodes (vsuffix l)) % 4 ^ k ∧
    (List.foldl (kstep k (4 ^ k - 1) (2 * (k - 1)) d) initKState l).kmer_reverse
        = packRev ((kmerCodes (vsuffix l)).drop (vrun l - k)) *
            4 ^ (k - min (vrun l) k) ∧
    (List.foldl (kstep k (4 ^ k - 1) (2 * (k - 1)) d) initKState l).canonical_hashes
        = specHashes k d l := by
  induction l using List.reverseRecOn with
  | nil =>
    refine ⟨rfl, by simp [initKState, vsuffix, kmerCodes, packFwd], ?_, ?_⟩
    · simp [initKState, vsuffix, vrun, kmerCodes, packRev, packFwd]
    · have h1 : (0 : Nat) + 1 - k = 0 := by omega
      simp [initKState, specHashes, h1]
  | append_singleton l b ih =>
    obtain ⟨ihA, ihB, ihC, ihD⟩ := ih
    rw [List.foldl_append, List.foldl_cons, List.foldl_nil]
    by_cases hb : isNt b = true
    · -- valid byte
      have hnt : ntLookup b < 4 := by simpa [isNt] using hb
      simp only [kstep]
      rw [if_neg (by omega : ¬ ntLookup b ≥ 4)]
      dsimp only
      have hvs' : vsuffix (l ++ [b]) = vsuffix l ++ [b] := vsuffix_concat_valid l b hb
      have hvr' : vrun (l ++ [b]) = vrun l + 1 := vrun_concat_valid l b hb
      set r := vrun l with hr
      set cs := kmerCodes (vsuffix l) with hcs
      have hcslen : cs.length = r := by
        rw [hcs, kmerCodes, List.length_map, length_vsuffix]
      have hcslt : ∀ c ∈ cs, c < 4 := by
        intro c hc
        rw [hcs, kmerCodes, List.mem_map] at hc
        obtain ⟨a, ha, rfl⟩ := hc
        have hval := vsuffix_all_valid l a ha
        simpa [isNt] using hval
      have hcs' : kmerCodes (vsuffix (l ++ [b])) = cs ++ [ntLookup b] := by
        rw [hvs', kmerCodes, List.map_append]
        rfl
      -- forward accumulator
      have hB : ((List.foldl (kstep k (4 ^ k - 1) (2 * (k - 1)) d) initKState l).kmer_forward
            <<< 2 % 2 ^ 64 ||| ntLookup b) &&& (4 ^ k - 1)
          = packFwd (cs ++ [ntLookup b]) % 4 ^ k := by
        rw [ihB]
        have hP : packFwd cs % 4 ^ k < 4 ^ k := Nat.mod_lt _ (by positivity)
        have h4k : (4 : Nat) ^ k ≤ 4 ^ 31 := Nat.pow_le_pow_right (by norm_num) hk31
        have hPlt : packFwd cs % 4 ^ k * 4 < 2 ^ 64 := by
          have he : (4 : Nat) ^ 31 * 4 = 2 ^ 64 := by norm_num
          omega
        rw [Nat.shiftLeft_eq]
        have h22 : (2 : Nat) ^ 2 = 4 := by norm_num
        rw [h22, Nat.mod_eq_of_lt hPlt, Nat.lor_comm,
          or_mul4_eq_add (ntLookup b) _ hnt]
        have hmask : (4 : Nat) ^ k - 1 = 2 ^ (2 * k) - 1 := by
          rw [Nat.pow_mul]
        have hmask2 : (2 : Nat) ^ (2 * k) = 4 ^ k := by
          rw [Nat.pow_mul]
        rw [hmask, land_two_pow_sub_one, hmask2, packFwd_concat, Nat.add_comm,
          mod_mul_add_mod]
      -- reverse accumulator
      have hC : (List.foldl (kstep k (4 ^ k - 1) (2 * (k - 1)) d) initKState l).kmer_reverse
            >>> 2 ||| (3 - ntLookup b) <<< (2 * (k - 1)) % 2 ^ 64
          = packRev ((cs ++ [ntLookup b]).drop (r + 1 - k)) * 4 ^ (k - min (r + 1) k) := by
        rw [ihC]
        have hsh : (3 - ntLookup b) <<< (2 * (k - 1)) % 2 ^ 64
            = (3 - ntLookup b) * 4 ^ (k - 1) := by
          rw [Nat.shiftLeft_eq]
          have h1 : (2 : Nat) ^ (2 * (k - 1)) = 4 ^ (k - 1) := by
            rw [Nat.pow_mul]
          rw [h1]
          apply Nat.mod_eq_of_lt
          have h2 : (4 : Nat) ^ (k - 1) ≤ 4 ^ 30 :=
            Nat.pow_le_pow_right (by norm_num) (by omega)
          have h3 : 3 - ntLookup b ≤ 3 := by omega
          calc (3 - ntLookup b) * 4 ^ (k - 1) ≤ 3 * 4 ^ 30 :=
                Nat.mul_le_mul h3 h2
            _ < 2 ^ 64 := by norm_num
        rw [hsh, Nat.shiftRight_eq_div_pow]
        have h22 : (2 : Nat) ^ 2 = 4 := by norm_num
        rw [h22]
        rcases Nat.lt_or_ge r k with hrk | hrk
        · -- run still shorter than a full window
          have hmin : min r k = r := by omega
          have hdrop0 : r - k = 0 := by omega
          rw [hmin, hdrop0, List.drop_zero]
          have hdiv : packRev cs * 4 ^ (k - r) / 4 = packRev cs * 4 ^ (k - r - 1) := by
            have he : (4 : Nat) ^ (k - r) = 4 ^ (k - r - 1) * 4 := by
              rw [← pow_succ]
              congr 1
              omega
            rw [he, ← Nat.mul_assoc, Nat.mul_div_cancel _ (by norm_num)]
          rw [hdiv]
          have hbound : packRev cs * 4 ^ (k - r - 1) < 4 ^ (k - 1) := by
            have h1 : packRev cs < 4 ^ r := by
              rw [← hcslen]
              exact packRev_lt cs
            have h2 : (4 : Nat) ^ r * 4 ^ (k - r - 1) = 4 ^ (k - 1) := by
              rw [← pow_add]
              congr 1
              omega
            calc packRev cs * 4 ^ (k - r - 1)
                < 4 ^ r * 4 ^ (k - r - 1) :=
                  (Nat.mul_lt_mul_right (by positivity)).mpr h1
              _ = 4 ^ (k - 1) := h2
          rw [or_mul_pow4_eq_add (k - 1) _ (3 - ntLookup b) hbound]
          have h5 : r + 1 - k = 0 := by omega
          have h6 : min (r + 1) k = r + 1 := by omega
          rw [h5, h6, List.drop_zero, packRev_concat, hcslen]
          have h8 : k - (r + 1) = k - r - 1 := by omega
          have h7 : (4 : Nat) ^ r * 4 ^ (k - r - 1) = 4 ^ (k - 1) := by
            rw [← pow_add]
            congr 1
            omega
          rw [Nat.add_mul, Nat.mul_assoc, h8, h7]
          exact Nat.add_comm _ _
        · -- run already covers a full window
          have hmin : min r k = k := by omega
          rw [hmin, Nat.sub_self, pow_zero, Nat.mul_one]
          have hDlen : (cs.drop (r - k)).length = k := by
            rw [List.length_drop, hcslen]
            omega
          have hDne : cs.drop (r - k) ≠ [] := by
            intro hD
            rw [hD] at hDlen
            simp at hDlen
            omega
          obtain ⟨c0, rest, hD⟩ := List.exists_cons_of_ne_nil hDne
          have hrest : rest = cs.drop (r + 1 - k) := by
            have h1 := List.drop_drop 1 (r - k) cs
            rw [hD] at h1
            simp at h1
            rw [h1]
            congr 1
            omega
          have hrestlen : rest.length = k - 1 := by
            have h1 : (c0 :: rest).length = k := hD ▸ hDlen
            simp at h1
            omega
          rw [hD, packRev_cons]
          have hdiv : (4 * packRev rest + (3 - c0)) / 4 = packRev rest := by
            omega
          rw [hdiv]
          have hbound : packRev rest < 4 ^ (k - 1) := by
            rw [← hrestlen]
            exact packRev_lt rest
          rw [or_mul_pow4_eq_add (k - 1) _ (3 - ntLookup b) hbound]
          have hdropapp : (cs ++ [ntLookup b]).drop (r + 1 - k)
              = rest ++ [ntLookup b] := by
            rw [List.drop_append_of_le_length (by rw [hcslen]; omega), ← hrest]
          have hmin' : min (r + 1) k = k := by omega
          rw [hdropapp, hmin', Nat.sub_self, pow_zero, Nat.mul_one,
            packRev_concat, hrestlen]
          exact Nat.add_comm _ _
      refine ⟨by rw [ihA, hvr'], by rw [hcs', hB], by rw [hcs', hvr', hC], ?_⟩
      -- hash set
      rw [ihA, ihD, hB, hC]
      rcases Nat.lt_or_ge r (k - 1) with hrk | hrk
      · -- no full window yet: nothing is emitted and no new window is valid
        rw [if_neg (by omega)]
        rw [specHashes_concat k d hk1 l b, if_neg ?hcond]
        case hcond =>
          rintro ⟨hkl, hok⟩
          have hlen1 : (l ++ [b]).length = l.length + 1 := by simp
          have htake : ((l ++ [b]).drop (l.length + 1 - k)).take k
              = (l ++ [b]).drop (l.length + 1 - k) := by
            have h1 := take_drop_last (l ++ [b]) k (by rw [hlen1]; omega)
            rw [hlen1] at h1
            exact h1
          have hvalid : ∀ x ∈ (l ++ [b]).drop ((l ++ [b]).length - k), isNt x = true := by
            intro x hx
            have hcode := hok.1 (ntLookup x) (by
              rw [kmerCodes]
              apply List.mem_map_of_mem
              rw [htake]
              rw [hlen1] at hx
              exact hx)
            simp [isNt]
            omega
          have hge := (vrun_ge_iff (l ++ [b]) k (by rw [hlen1]; omega)).mpr hvalid
          rw [hvr'] at hge
          omega
      · -- a full window ends at the new byte
        rw [if_pos hrk]
        have hkr1 : k ≤ r + 1 := by omega
        have hlen1 : (l ++ [b]).length = l.length + 1 := by simp
        have hvslen : (vsuffix (l ++ [b])).length = r + 1 := by
          rw [length_vsuffix, hvr']
        have hK : k ≤ l.length + 1 := by
          have h1 := vrun_le_length (l ++ [b])
          rw [hvr', hlen1] at h1
          omega
        have hwin : (l ++ [b]).drop (l.length + 1 - k)
            = (vsuffix (l ++ [b])).drop (r + 1 - k) := by
          have h1 := drop_last_of_suffix (vsuffix (l ++ [b])) (l ++ [b]) k
            (vsuffix_isSuffix _) (by rw [hvslen]; omega)
          rw [hlen1, hvslen] at h1
          exact h1
        have htake : ((l ++ [b]).drop (l.length + 1 - k)).take k
            = (l ++ [b]).drop (l.length + 1 - k) := by
          have h1 := take_drop_last (l ++ [b]) k (by rw [hlen1]; omega)
          rw [hlen1] at h1
          exact h1
        have hcodes : kmerCodes (((l ++ [b]).drop (l.length + 1 - k)).take k)
            = (cs ++ [ntLookup b]).drop (r + 1 - k) := by
          rw [htake, hwin, kmerCodes, List.map_drop, ← kmerCodes, hcs']
        have hW : ∀ c ∈ (cs ++ [ntLookup b]).drop (r + 1 - k), c < 4 := by
          intro c hcmem
          have hc2 := List.mem_of_mem_drop hcmem
          rw [List.mem_append] at hc2
          rcases hc2 with h | h
          · exact hcslt c h
          · simp at h
            omega
        have hWlen : ((cs ++ [ntLookup b]).drop (r + 1 - k)).length = k := by
          rw [List.length_drop, List.length_append, hcslen]
          simp
          omega
        have hkfW : packFwd (cs ++ [ntLookup b]) % 4 ^ k
            = packFwd ((cs ++ [ntLookup b]).drop (r + 1 - k)) := by
          have hsplit := List.take_append_drop (r + 1 - k) (cs ++ [ntLookup b])
          conv_lhs => rw [← hsplit]
          rw [packFwd_append, hWlen, Nat.add_comm, Nat.add_mul_mod_self_right]
          exact Nat.mod_eq_of_lt (by
            have h1 := packFwd_lt _ hW
            rw [hWlen] at h1
            exact h1)
        have hmin' : min (r + 1) k = k := by omega
        rw [hmin', Nat.sub_self, pow_zero, Nat.mul_one, hkfW]
        have hcanon : (if packFwd ((cs ++ [ntLookup b]).drop (r + 1 - k))
              < packRev ((cs ++ [ntLookup b]).drop (r + 1 - k)) then
              packFwd ((cs ++ [ntLookup b]).drop (r + 1 - k))
            else packRev ((cs ++ [ntLookup b]).drop (r + 1 - k)))
            = canonicalOf (((l ++ [b]).drop (l.length + 1 - k)).take k) := by
          rw [canonicalOf, hcodes, min_eq_ite]
        rw [hcanon, specHashes_concat k d hk1 l b]
        by_cases hthr : canonicalOf (((l ++ [b]).drop (l.length + 1 - k)).take k)
            ≤ U64MAX / d
        · rw [if_pos hthr, if_pos ⟨hK, ⟨by
            intro c hcmem
            rw [hcodes] at hcmem
            exact hW c hcmem, hthr⟩⟩]
        · rw [if_neg hthr, if_neg (by rintro ⟨-, hok⟩; exact hthr hok.2)]
    · -- ambiguous byte: the loop state is reset
      have hbf : isNt b = false := by simpa using hb
      have hnt : ntLookup b ≥ 4 := by
        simp [isNt] at hbf
        omega
      simp only [kstep]
      rw [if_pos hnt]
      dsimp only
      refine ⟨by rw [vrun_concat_invalid l b hbf], ?_, ?_, ?_⟩
      · rw [vsuffix_concat_invalid l b hbf]
        simp [kmerCodes, packFwd]
      · rw [vsuffix_concat_invalid l b hbf, vrun_concat_invalid l b hbf]
        simp [kmerCodes, packRev, packFwd]
      · rw [ihD, specHashes_concat k d hk1 l b, if_neg ?hcond2]
        case hcond2 =>
          rintro ⟨hkl, hok⟩
          have hdrop : (l ++ [b]).drop (l.length + 1 - k)
              = l.drop (l.length + 1 - k) ++ [b] :=
            List.drop_append_of_le_length (by omega)
          have hlen2 : (l.drop (l.length + 1 - k)).length = k - 1 := by
            rw [List.length_drop]
            omega
          have htake : ((l ++ [b]).drop (l.length + 1 - k)).take k
              = l.drop (l.length + 1 - k) ++ [b] := by
            rw [hdrop]
            apply List.take_of_length_le
            rw [List.length_append, hlen2]
            simp
            omega
          have hmem : b ∈ ((l ++ [b]).drop (l.length + 1 - k)).take k := by
            rw [htake, List.mem_append]
            exact Or.inr (by simp)
          have hcode := hok.1 (ntLookup b)
            (by rw [kmerCodes]; exact List.mem_map_of_mem _ hmem)
          omega

/-! ### Plumbing between `fracMinHash` and `specHashes` -/

/-- `(1u64 << (kmer_size << 1)) - 1` is the 2k-bit mask. -/
theorem mask_eq (k : Nat) : 1 <<< (k <<< 1) - 1 = 4 ^ k - 1 := by
  have h1 : k <<< 1 = 2 * k := by
    rw [Nat.shiftLeft_eq, pow_one]
    ring
  rw [h1, Nat.shiftLeft_eq, one_mul, Nat.pow_mul]

/-- `(kmer_size - 1) * 2` written with the factor in front. -/
theorem shift_eq (k : Nat) : (k - 1) * 2 = 2 * (k - 1) := Nat.mul_comm _ _

/-- The hashes accumulated by the loop are the reference sketch. -/
theorem kfold_hashes (k d : Nat) (hk1 : 1 ≤ k) (hk31 : k ≤ 31) (l : List Nat) :
    (List.foldl (kstep k (1 <<< (k <<< 1) - 1) ((k - 1) * 2) d) initKState
      l).canonical_hashes = specHashes k d l := by
  rw [mask_eq, shift_eq]
  exact (kfold_invariant k d hk1 hk31 l).2.2.2

/-- On the valid, non-overflowing domain, `frac_min_hash` succeeds and
returns exactly the reference sketch. -/
theorem fracMinHash_eq_ok (k d : Nat) (seq : List Nat) (hlen : k ≤ seq.length)
    (hd1 : 1 ≤ d) (hd2 : d ≤ 200) (hk1 : 1 ≤ k) (hk31 : k ≤ 31) :
    fracMinHash k d seq = some (Except.ok (specHashes k d seq)) := by
  have h2k : k <<< 1 = 2 * k := by
    rw [Nat.shiftLeft_eq, pow_one]
    ring
  simp only [fracMinHash]
  rw [if_neg (by omega), if_neg (by omega),
    if_neg (show ¬ k <<< 1 ≥ 64 by rw [h2k]; omega), if_neg (by omega)]
  rw [kfold_hashes k d hk1 hk31 seq]

/-- Conversely, an `ok` result pins down all parameters and the value. -/
theorem fracMinHash_ok_inv (k d : Nat) (seq : List Nat) (s : Finset Nat)
    (h : fracMinHash k d seq = some (Except.ok s)) :
    k ≤ seq.length ∧ 1 ≤ d ∧ d ≤ 200 ∧ 1 ≤ k ∧ k ≤ 31 ∧
      s = specHashes k d seq := by
  have h2k : k <<< 1 = 2 * k := by
    rw [Nat.shiftLeft_eq, pow_one]
    ring
  simp only [fracMinHash] at h
  split_ifs at h with h1 h2 h3 h4
  · exact absurd h (by simp)
  · exact absurd h (by simp)
  · rw [h2k] at h3
    simp only [Option.some.injEq, Except.ok.injEq] at h
    refine ⟨by omega, by omega, by omega, by omega, by omega, ?_⟩
    rw [← h, kfold_hashes k d (by omega) (by omega) seq]

/-! ### Reverse complement and the sketch -/

theorem reverseComplement_length (S : List Nat) :
    (reverseComplement S).length = S.length := by
  simp [reverseComplement]

theorem reverseComplement_map (X : List Nat) :
    reverseComplement X = (X.map rcByte).reverse := by
  rw [reverseComplement, List.map_reverse]

/-- On unambiguous upper-case bases, the byte complement commutes with the
2-bit encoding as `c ↦ 3 - c`. -/
theorem ntLookup_rcByte (b : Nat) (hb : b = 65 ∨ b = 67 ∨ b = 71 ∨ b = 84) :
    ntLookup (rcByte b) = 3 - ntLookup b := by
  rcases hb with rfl | rfl | rfl | rfl <;> decide

theorem rcByte_ACGT (b : Nat) (hb : b = 65 ∨ b = 67 ∨ b = 71 ∨ b = 84) :
    rcByte b = 65 ∨ rcByte b = 67 ∨ rcByte b = 71 ∨ rcByte b = 84 := by
  rcases hb with rfl | rfl | rfl | rfl <;> decide

/-- Codes of the reverse complement of an unambiguous window. -/
theorem rc_codes (w : List Nat) (hw : ∀ b ∈ w, b = 65 ∨ b = 67 ∨ b = 71 ∨ b = 84) :
    kmerCodes (reverseComplement w) = ((kmerCodes w).map (fun c => 3 - c)).reverse := by
  rw [reverseComplement_map, kmerCodes, kmerCodes, List.map_reverse,
    List.map_map, List.map_map]
  congr 1
  apply List.map_congr_left
  intro a ha
  simp only [Function.comp_apply]
  exact ntLookup_rcByte a (hw a ha)

theorem code_lt_of_ACGT (b : Nat) (hb : b = 65 ∨ b = 67 ∨ b = 71 ∨ b = 84) :
    ntLookup b < 4 := by
  rcases hb with rfl | rfl | rfl | rfl <;> decide

/-- Canonicalisation erases strand: the canonical packed value of a window
equals that of its reverse complement. -/
theorem canonicalOf_rc (w : List Nat)
    (hw : ∀ b ∈ w, b = 65 ∨ b = 67 ∨ b = 71 ∨ b = 84) :
    canonicalOf (reverseComplement w) = canonicalOf w := by
  rw [canonicalOf, canonicalOf, rc_codes w hw]
  have h1 : packFwd (((kmerCodes w).map (fun c => 3 - c)).reverse)
      = packRev (kmerCodes w) := rfl
  have h2 : packRev (((kmerCodes w).map (fun c => 3 - c)).reverse)
      = packFwd (kmerCodes w) := by
    rw [packRev, List.map_reverse, List.reverse_reverse, List.map_map]
    congr 1
    have hid : ∀ c ∈ kmerCodes w, ((fun c => 3 - c) ∘ fun c => 3 - c) c = id c := by
      intro c hc
      rw [kmerCodes, List.mem_map] at hc
      obtain ⟨a, ha, rfl⟩ := hc
      have := code_lt_of_ACGT a (hw a ha)
      simp only [Function.comp_apply, id_eq]
      omega
    rw [List.map_congr_left hid, List.map_id]
  rw [h1, h2, Nat.min_comm]

/-- A window of the reverse complement is the reverse complement of the
mirrored window. -/
theorem rc_window (S : List Nat) (i k : Nat) (h : i + k ≤ S.length) :
    ((reverseComplement S).drop i).take k
      = reverseComplement ((S.drop (S.length - k - i)).take k) := by
  rw [reverseComplement_map, reverseComplement_map]
  rw [List.drop_reverse, List.take_reverse]
  have h1 : ((S.map rcByte).take ((S.map rcByte).length - i)).length
      = (S.map rcByte).length - i := by
    rw [List.length_take]
    omega
  rw [h1, List.drop_take]
  rw [List.map_take, List.map_drop]
  have e1 : (S.map rcByte).length - i - ((S.map rcByte).length - i - k) = k := by
    rw [List.length_map]
    omega
  have e2 : (S.map rcByte).length - i - k = S.length - k - i := by
    rw [List.length_map]
    omega
  rw [e1, e2]

/-- The reference sketch is invariant under reverse complement for
unambiguous upper-case sequences. -/
theorem specHashes_rc (k d : Nat) (S : List Nat)
    (hS : ∀ b ∈ S, b = 65 ∨ b = 67 ∨ b = 71 ∨ b = 84) :
    specHashes k d (reverseComplement S) = specHashes k d S := by
  have hwinACGT : ∀ j, ∀ b ∈ (S.drop j).take k,
      b = 65 ∨ b = 67 ∨ b = 71 ∨ b = 84 := by
    intro j b hb
    exact hS b (List.mem_of_mem_drop (List.mem_of_mem_take hb))
  apply Finset.ext
  intro x
  rw [mem_specHashes, mem_specHashes, reverseComplement_length]
  constructor
  · rintro ⟨i, hik, hok, hx⟩
    have hcan : canonicalOf (((reverseComplement S).drop i).take k)
        = canonicalOf ((S.drop (S.length - k - i)).take k) := by
      rw [rc_window S i k hik, canonicalOf_rc _ (hwinACGT _)]
    refine ⟨S.length - k - i, by omega, ⟨?_, ?_⟩, ?_⟩
    · intro c hc
      rw [kmerCodes, List.mem_map] at hc
      obtain ⟨a, ha, rfl⟩ := hc
      exact code_lt_of_ACGT a (hwinACGT _ a ha)
    · rw [← hcan]
      exact hok.2
    · rw [← hcan]
      exact hx
  · rintro ⟨j, hjk, hok, hx⟩
    have hj : S.length - k - (S.length - k - j) = j := by omega
    have hcan : canonicalOf (((reverseComplement S).drop (S.length - k - j)).take k)
        = canonicalOf ((S.drop j).take k) := by
      rw [rc_window S (S.length - k - j) k (by omega), hj,
        canonicalOf_rc _ (hwinACGT _)]
    refine ⟨S.length - k - j, by omega, ⟨?_, ?_⟩, ?_⟩
    · intro c hc
      rw [rc_window S (S.length - k - j) k (by omega), hj,
        rc_codes _ (hwinACGT _), List.mem_reverse, List.mem_map] at hc
      obtain ⟨a, ha, rfl⟩ := hc
      omega
    · rw [hcan]
      exact hok.2
    · rw [hcan]
      exact hx

/-! ### Characterisation of the reverse index -/

/-- Processing any list of sequence indices produces, at each hash key,
either nothing (no processed sequence sketches to that hash) or a bitset of
capacity `seqs.length` whose set bits are exactly the processed indices
whose sketch contains the hash. -/
theorem buildOrder_char (seqs : List (List Nat)) (sk : List Nat → Finset Nat)
    (L : List Nat) (h : Nat) :
    buildOrder seqs sk L h =
      if ∃ i ∈ L, h ∈ sk (seqs.getD i []) then
        some { len := seqs.length,
               bits := L.toFinset.filter (fun j => h ∈ sk (seqs.getD j [])) }
      else none := by
  induction L using List.reverseRecOn with
  | nil => simp [buildOrder]
  | append_singleton L i0 ih =>
    rw [buildOrder, List.foldl_append, List.foldl_cons, List.foldl_nil]
    rw [← buildOrder]
    have htf : (L ++ [i0]).toFinset = insert i0 L.toFinset := by
      rw [List.toFinset_append, Finset.union_comm]
      simp [Finset.insert_eq]
    rw [upsertSeq]
    by_cases hmem : h ∈ sk (seqs.getD i0 [])
    · rw [if_pos hmem, ih]
      by_cases hex : ∃ i ∈ L, h ∈ sk (seqs.getD i [])
      · rw [if_pos hex, if_pos ⟨i0, by simp, hmem⟩]
        simp only [Bitset.setBit]
        rw [htf, Finset.filter_insert, if_pos hmem]
      · rw [if_neg hex, if_pos ⟨i0, by simp, hmem⟩]
        simp only [Bitset.withCapacity, Bitset.setBit]
        have hempty : L.toFinset.filter (fun j => h ∈ sk (seqs.getD j [])) = ∅ := by
          rw [Finset.filter_eq_empty_iff]
          intro j hj
          exact fun hcon => hex ⟨j, List.mem_toFinset.mp hj, hcon⟩
        rw [htf, Finset.filter_insert, if_pos hmem, hempty]
    · rw [if_neg hmem, ih]
      have hiff : (∃ i ∈ L ++ [i0], h ∈ sk (seqs.getD i [])) ↔
          ∃ i ∈ L, h ∈ sk (seqs.getD i []) := by
        constructor
        · rintro ⟨i, hi, hh⟩
          rw [List.mem_append] at hi
          rcases hi with hi | hi
          · exact ⟨i, hi, hh⟩
          · simp at hi
            subst hi
            exact absurd hh hmem
        · rintro ⟨i, hi, hh⟩
          exact ⟨i, by rw [List.mem_append]; exact Or.inl hi, hh⟩
      have hfil : (L ++ [i0]).toFinset.filter (fun j => h ∈ sk (seqs.getD j []))
          = L.toFinset.filter (fun j => h ∈ sk (seqs.getD j [])) := by
        rw [htf, Finset.filter_insert, if_neg hmem]
      rw [hfil]
      exact if_congr hiff.symm rfl rfl

/-! ### Degenerate `kmer_size` values -/

/-- At `kmer_size = 0` the shift computation underflows: debug panic. -/
theorem fracMinHash_k0 (d : Nat) (T : List Nat) (hd : ¬(d = 0 ∨ d > 200)) :
    fracMinHash 0 d T = none := by
  simp only [fracMinHash]
  rw [if_neg (by omega), if_neg hd, if_neg (by decide)]
  simp

/-- At `kmer_size ≥ 32` the mask computation shifts by at least 64 bits:
debug panic. -/
theorem fracMinHash_overflow (k d : Nat) (T : List Nat) (hk : 32 ≤ k)
    (hlen : k ≤ T.length) (hd : ¬(d = 0 ∨ d > 200)) :
    fracMinHash k d T = none := by
  have h2k : k <<< 1 = 2 * k := by
    rw [Nat.shiftLeft_eq, pow_one]
    ring
  simp only [fracMinHash]
  rw [if_neg (by omega), if_neg hd, if_pos (by rw [h2k]; omega)]

/-! ### Claim theorems -/

/-- C1: for every sequence list and sketching strategy, a bitset stored in
the reverse index under hash `h` has length `seqs.length`, and its bit `i`
is set exactly when the strategy's sketch of sequence `i` contains `h`. -/
theorem build_reverse_index_bit_iff (seqs : List (List Nat))
    (sk : List Nat → Finset Nat) (h i : Nat) (bs : Bitset)
    (hb : buildReverseIndex seqs sk h = some bs) (hi : i < seqs.length) :
    bs.len = seqs.length ∧ (i ∈ bs.bits ↔ h ∈ sk (seqs.getD i [])) := by
  rw [buildReverseIndex, buildOrder_char] at hb
  split_ifs at hb with hex
  · simp only [Option.some.injEq] at hb
    constructor
    · rw [← hb]
    · rw [← hb]
      simp only [Finset.mem_filter, List.mem_toFinset, List.mem_range]
      exact ⟨fun hx => hx.2, fun hx => ⟨hi, hx⟩⟩

/-- Witness for C1 on a concrete two-sequence index. -/
theorem build_reverse_index_bit_iff_witness :
    ({ len := 2, bits := {0} } : Bitset).len = 2 ∧
      ((0 : Nat) ∈ ({ len := 2, bits := {0} } : Bitset).bits ↔
        (1 : Nat) ∈ skLen [7]) :=
  build_reverse_index_bit_iff [[7], [8, 9]] skLen 1 0 { len := 2, bits := {0} }
    (by decide) (by decide)

/-- C2: membership characterisation of the FracMinHash sketch: `x` is in
the returned set exactly when some unambiguous window of length `k` has a
canonical packed value passing the threshold test and `x` is its mixed
hash. -/
theorem frac_min_hash_membership (k d : Nat) (seq : List Nat) (s : Finset Nat)
    (hlen : k ≤ seq.length) (hd1 : 1 ≤ d) (hd2 : d ≤ 200)
    (hok : fracMinHash k d seq = some (Except.ok s)) (x : Nat) :
    x ∈ s ↔ ∃ i, i + k ≤ seq.length ∧
      (∀ c ∈ kmerCodes ((seq.drop i).take k), c < 4) ∧
      canonicalOf ((seq.drop i).take k) ≤ U64MAX / d ∧
      x = mmHash64 (canonicalOf ((seq.drop i).take k)) := by
  obtain ⟨-, -, -, -, -, rfl⟩ := fracMinHash_ok_inv k d seq s hok
  rw [mem_specHashes]
  unfold windowOk
  constructor
  · rintro ⟨i, h1, ⟨h2, h3⟩, h4⟩
    exact ⟨i, h1, h2, h3, h4⟩
  · rintro ⟨i, h1, h2, h3, h4⟩
    exact ⟨i, h1, ⟨h2, h3⟩, h4⟩

/-- Witness for C2 at the sequence `ACG` with `k = 2`, `d = 1`. -/
theorem frac_min_hash_membership_witness :
    mmHash64 1 ∈ ({mmHash64 6, mmHash64 1} : Finset Nat) ↔ ∃ i, i + 2 ≤ 3 ∧
      (∀ c ∈ kmerCodes ((([65, 67, 71] : List Nat).drop i).take 2), c < 4) ∧
      canonicalOf ((([65, 67, 71] : List Nat).drop i).take 2) ≤ U64MAX / 1 ∧
      mmHash64 1 = mmHash64 (canonicalOf ((([65, 67, 71] : List Nat).drop i).take 2)) :=
  frac_min_hash_membership 2 1 [65, 67, 71] {mmHash64 6, mmHash64 1}
    (by norm_num) (by norm_num) (by norm_num) (by decide) (mmHash64 1)

/-- C3: on unambiguous upper-case sequences the sketch is strand
symmetric: `frac_min_hash` gives the same result on a sequence and on its
reverse complement. -/
theorem sketch_reverse_complement (k d : Nat) (S : List Nat)
    (hS : ∀ b ∈ S, b = 65 ∨ b = 67 ∨ b = 71 ∨ b = 84)
    (hlen : k ≤ S.length) (hd1 : 1 ≤ d) (hd2 : d ≤ 200) :
    fracMinHash k d S = fracMinHash k d (reverseComplement S) := by
  by_cases hk0 : k = 0
  · subst hk0
    rw [fracMinHash_k0 d S (by omega), fracMinHash_k0 d (reverseComplement S) (by omega)]
  by_cases hk32 : 32 ≤ k
  · rw [fracMinHash_overflow k d S hk32 hlen (by omega),
      fracMinHash_overflow k d (reverseComplement S) hk32
        (by rw [reverseComplement_length]; omega) (by omega)]
  · rw [fracMinHash_eq_ok k d S hlen hd1 hd2 (by omega) (by omega),
      fracMinHash_eq_ok k d (reverseComplement S)
        (by rw [reverseComplement_length]; omega) hd1 hd2 (by omega) (by omega),
      specHashes_rc k d S hS]

/-- Witness for C3 at the sequence `ACG` with `k = 2`, `d = 1`. -/
theorem sketch_reverse_complement_witness :
    fracMinHash 2 1 [65, 67, 71] = fracMinHash 2 1 (reverseComplement [65, 67, 71]) :=
  sketch_reverse_complement 2 1 [65, 67, 71] (by decide) (by decide)
    (by norm_num) (by norm_num)

/-- C4: `frac_min_hash` reports an `InvalidParameterError` exactly when
`kmer_size > seq.len()` or `ds_factor` is outside `1..=200`, and on that
error path the result is determined by the sequence length alone (no
k-mer is examined). -/
theorem frac_min_hash_invalid_parameter (k d : Nat) (seq : List Nat) :
    ((∃ msg, fracMinHash k d seq
        = some (Except.error (BioError.invalidParameterError msg)))
      ↔ (k > seq.length ∨ d = 0 ∨ d > 200)) ∧
    ∀ seq2 : List Nat, seq2.length = seq.length →
      (k > seq.length ∨ d = 0 ∨ d > 200) →
      fracMinHash k d seq2 = fracMinHash k d seq := by
  constructor
  · constructor
    · rintro ⟨msg, hmsg⟩
      by_contra hcon
      push_neg at hcon
      obtain ⟨hlen, hd0, hd200⟩ := hcon
      by_cases hk0 : k = 0
      · subst hk0
        rw [fracMinHash_k0 d seq (by omega)] at hmsg
        exact absurd hmsg (by simp)
      by_cases hk32 : 32 ≤ k
      · rw [fracMinHash_overflow k d seq hk32 (by omega) (by omega)] at hmsg
        exact absurd hmsg (by simp)
      · rw [fracMinHash_eq_ok k d seq (by omega) (by omega) (by omega)
          (by omega) (by omega)] at hmsg
        exact absurd hmsg (by simp)
    · intro hor
      by_cases hkl : k > seq.length
      · refine ⟨"kmer size " ++ toString k ++ " cannot be longer than sequence len "
          ++ toString seq.length ++ ".", ?_⟩
        simp only [fracMinHash]
        rw [if_pos hkl]
      · have hd : d = 0 ∨ d > 200 := by
          rcases hor with h | h | h
          exacts [absurd h hkl, Or.inl h, Or.inr h]
        refine ⟨"downsampling factor " ++ toString d ++ " must be in range 1-200.", ?_⟩
        simp only [fracMinHash]
        rw [if_neg hkl, if_pos hd]
  · intro seq2 hlen2 hor
    by_cases hkl : k > seq.length
    · simp only [fracMinHash]
      rw [hlen2, if_pos hkl, if_pos hkl]
    · have hd : d = 0 ∨ d > 200 := by
        rcases hor with h | h | h
        exacts [absurd h hkl, Or.inl h, Or.inr h]
      simp only [fracMinHash]
      rw [hlen2, if_neg hkl, if_neg hkl, if_pos hd, if_pos hd]

/-- Witness for C4: `ds_factor = 0` fails identically on two equal-length
sequences. -/
theorem frac_min_hash_invalid_parameter_witness :
    fracMinHash 3 0 [65, 65, 65, 65] = fracMinHash 3 0 [67, 67, 67, 67] :=
  (frac_min_hash_invalid_parameter 3 0 [67, 67, 67, 67]).2 [65, 65, 65, 65]
    rfl (Or.inr (Or.inl rfl))

/-- C5 counterexample: the claim admits `kmer_size = 32`, but there the
mask computation `(1u64 << 64) - 1` overflows its shift and the call
panics in a debug build instead of returning `Ok`. -/
theorem frac_min_hash_k32_overflow :
    fracMinHash 32 1 (List.replicate 32 65) = none := rfl

/-- C5 (amended): for `1 ≤ kmer_size ≤ 31`, `1 ≤ ds_factor ≤ 200` and
`kmer_size ≤ seq.len()`, `frac_min_hash` returns `Ok` with no panic or
overflow. -/
theorem frac_min_hash_valid_domain_ok (k d : Nat) (seq : List Nat) (hk1 : 1 ≤ k)
    (hk31 : k ≤ 31) (hd1 : 1 ≤ d) (hd2 : d ≤ 200) (hlen : k ≤ seq.length) :
    fracMinHash k d seq = some (Except.ok (specHashes k d seq)) :=
  fracMinHash_eq_ok k d seq hlen hd1 hd2 hk1 hk31

/-- Witness for C5 (amended) at the largest non-overflowing parameters. -/
theorem frac_min_hash_valid_domain_ok_witness :
    fracMinHash 31 200 (List.replicate 31 65)
      = some (Except.ok (specHashes 31 200 (List.replicate 31 65))) :=
  frac_min_hash_valid_domain_ok 31 200 (List.replicate 31 65) (by norm_num)
    (by norm_num) (by norm_num) (by norm_num) (by simp)

/-- C6 counterexample: byte 0 is not one of `A/a/C/c/G/g/T/t/U/u`, yet its
lookup code is 0 (not ≥ 4), and a window consisting of byte 0 produces a
k-mer rather than resetting. -/
theorem nt_lookup_byte_zero :
    (0 : Nat) ∉ ([65, 97, 67, 99, 71, 103, 84, 116, 85, 117] : List Nat) ∧
    ¬ (4 ≤ ntLookup 0) ∧
    fracMinHash 1 1 [0] = some (Except.ok {mmHash64 0}) :=
  ⟨by decide, by decide, by decide⟩

set_option maxRecDepth 10000 in
/-- C6 (amended): the lookup table maps exactly the bytes
`{0, 1, 2, 3} ∪ {A, a, C, c, G, g, T, t, U, u}` to codes below 4 (bytes
0–3 pass through as pre-encoded codes); every other byte is ambiguous, and
on an ambiguous byte the loop resets both accumulators and the valid-base
counter while keeping the collected hashes. -/
theorem ambiguous_byte_resets :
    (∀ b ∈ Finset.range 256, (ntLookup b < 4 ↔
      b ∈ ([0, 1, 2, 3, 65, 97, 67, 99, 71, 103, 84, 116, 85, 117] : List Nat))) ∧
    ∀ kmer_size mask shift ds_factor st b, 4 ≤ ntLookup b →
      kstep kmer_size mask shift ds_factor st b =
        { kmer_forward := 0, kmer_reverse := 0, valid_kmer_index := 0,
          canonical_hashes := st.canonical_hashes } := by
  constructor
  · decide
  · intro ks mask shift ds st b hb
    simp only [kstep]
    rw [if_pos hb]

/-- Witness for C6 (amended) at byte `N` (78). -/
theorem ambiguous_byte_resets_witness :
    (ntLookup 78 < 4 ↔
      (78 : Nat) ∈ ([0, 1, 2, 3, 65, 97, 67, 99, 71, 103, 84, 116, 85, 117] : List Nat)) ∧
    kstep 3 63 4 1 (KState.mk 5 7 2 ∅) 78 = KState.mk 0 0 0 ∅ :=
  ⟨ambiguous_byte_resets.1 78 (by decide),
   ambiguous_byte_resets.2 3 63 4 1 (KState.mk 5 7 2 ∅) 78 (by decide)⟩

/-- C7: increasing the downsampling factor shrinks the sketch: for
`d ≤ d2` (both valid), the sketch at `d2` is a subset of the sketch at
`d`. -/
theorem sketch_downsample_subset (k d d2 : Nat) (S : List Nat) (hd1 : 1 ≤ d)
    (hdd : d ≤ d2) (hd200 : d2 ≤ 200) (hlen : k ≤ S.length) (s s2 : Finset Nat)
    (h2 : fracMinHash k d2 S = some (Except.ok s2))
    (h : fracMinHash k d S = some (Except.ok s)) :
    s2 ⊆ s := by
  obtain ⟨-, -, -, -, -, rfl⟩ := fracMinHash_ok_inv k d2 S s2 h2
  obtain ⟨-, -, -, -, -, rfl⟩ := fracMinHash_ok_inv k d S s h
  intro x hx
  rw [mem_specHashes] at hx ⊢
  obtain ⟨i, hik, hok, hx⟩ := hx
  refine ⟨i, hik, ⟨hok.1, ?_⟩, hx⟩
  exact le_trans hok.2 (Nat.div_le_div_left hdd (by omega))

/-- Witness for C7 on the single-base sequence `A` with `d = 1`,
`d2 = 200`. -/
theorem sketch_downsample_subset_witness :
    ({mmHash64 0} : Finset Nat) ⊆ {mmHash64 0} :=
  sketch_downsample_subset 1 1 200 [65] (by norm_num) (by norm_num)
    (by norm_num) (by decide) {mmHash64 0} {mmHash64 0} (by decide) (by decide)

/-- C8: the reverse index does not depend on the order in which the
sequences are processed: any permutation of the index order yields the
same map, so a parallel build equals the sequential one. -/
theorem build_reverse_index_order_independent (seqs : List (List Nat))
    (sk : List Nat → Finset Nat) (order : List Nat)
    (hperm : order.Perm (List.range seqs.length)) :
    buildOrder seqs sk order = buildReverseIndex seqs sk := by
  funext h
  rw [buildOrder_char, buildReverseIndex, buildOrder_char]
  have htf : order.toFinset = (List.range seqs.length).toFinset := by
    apply Finset.ext
    intro a
    rw [List.mem_toFinset, List.mem_toFinset, hperm.mem_iff]
  have hiff : (∃ i ∈ order, h ∈ sk (seqs.getD i [])) ↔
      ∃ i ∈ List.range seqs.length, h ∈ sk (seqs.getD i []) := by
    constructor <;> rintro ⟨i, hi, hh⟩
    · exact ⟨i, hperm.mem_iff.mp hi, hh⟩
    · exact ⟨i, hperm.mem_iff.mpr hi, hh⟩
  rw [htf]
  exact if_congr hiff rfl rfl

/-- Witness for C8: processing two sequences in reverse order yields the
same index. -/
theorem build_reverse_index_order_independent_witness :
    buildOrder [[7], [8, 9]] skLen [1, 0] = buildReverseIndex [[7], [8, 9]] skLen :=
  build_reverse_index_order_independent [[7], [8, 9]] skLen [1, 0] (by decide)

/-- C9: `mm_hash64` is invertible on 64-bit values — `mmHash64Inv` is a
left inverse, hence the hash is injective. -/
theorem mm_hash64_invertible (x : Nat) (hx : x < 2 ^ 64) :
    mmHash64Inv (mmHash64 x) = x ∧
      ∀ y, y < 2 ^ 64 → mmHash64 x = mmHash64 y → x = y := by
  refine ⟨mmHash64Inv_mmHash64 x hx, ?_⟩
  intro y hy hxy
  have h1 := mmHash64Inv_mmHash64 x hx
  have h2 := mmHash64Inv_mmHash64 y hy
  rw [← h1, ← h2, hxy]

/-- Witness for C9 at 42. -/
theorem mm_hash64_invertible_witness : mmHash64Inv (mmHash64 42) = 42 :=
  (mm_hash64_invertible 42 (by norm_num)).1

/-- C10: for `kmer_size ≤ 28` every canonical packed k-mer is below
`2 ^ 56 ≤ u64::MAX / 200`, so the retention test always passes and the
downsampling factor has no effect on the result. -/
theorem sketch_downsample_no_effect (k d d2 : Nat) (S : List Nat) (hk1 : 1 ≤ k)
    (hk28 : k ≤ 28) (hlen : k ≤ S.length) (hd1 : 1 ≤ d) (hd200 : d ≤ 200)
    (hd1b : 1 ≤ d2) (hd200b : d2 ≤ 200) :
    fracMinHash k d S = fracMinHash k d2 S := by
  rw [fracMinHash_eq_ok k d S hlen hd1 hd200 hk1 (by omega),
    fracMinHash_eq_ok k d2 S hlen hd1b hd200b hk1 (by omega)]
  have hthr : ∀ dd : Nat, 1 ≤ dd → dd ≤ 200 → ∀ i : Nat,
      (∀ c ∈ kmerCodes ((S.drop i).take k), c < 4) →
      canonicalOf ((S.drop i).take k) ≤ U64MAX / dd := by
    intro dd hdd1 hdd2 i hval
    have h1 : canonicalOf ((S.drop i).take k)
        ≤ packFwd (kmerCodes ((S.drop i).take k)) := by
      rw [canonicalOf]
      exact Nat.min_le_left _ _
    have h2 := packFwd_lt _ hval
    have h3 : (kmerCodes ((S.drop i).take k)).length ≤ k := by
      rw [kmerCodes, List.length_map, List.length_take]
      exact Nat.min_le_left _ _
    have h4 : (4 : Nat) ^ (kmerCodes ((S.drop i).take k)).length ≤ 4 ^ 28 :=
      Nat.pow_le_pow_right (by norm_num) (le_trans h3 hk28)
    have h5 : (4 : Nat) ^ 28 ≤ U64MAX / 200 := by norm_num [U64MAX]
    have h6 : U64MAX / 200 ≤ U64MAX / dd := Nat.div_le_div_left hdd2 (by omega)
    omega
  suffices hs : specHashes k d S = specHashes k d2 S by rw [hs]
  apply Finset.ext
  intro x
  rw [mem_specHashes, mem_specHashes]
  constructor <;> rintro ⟨i, h1, hok, hx⟩
  · exact ⟨i, h1, ⟨hok.1, hthr d2 hd1b hd200b i hok.1⟩, hx⟩
  · exact ⟨i, h1, ⟨hok.1, hthr d hd1 hd200 i hok.1⟩, hx⟩

/-- Witness for C10 on the single-base sequence `A`. -/
theorem sketch_downsample_no_effect_witness :
    fracMinHash 1 1 [65] = fracMinHash 1 200 [65] :=
  sketch_downsample_no_effect 1 1 200 [65] (by norm_num) (by norm_num)
    (by decide) (by norm_num) (by norm_num) (by norm_num) (by norm_num)

end BioUtils
